import Mathlib

/-!
Verification of the encode path of traildb (src/tdb_encode.c, src/util.c).

The definitions below are a shallow embedding of the functions of
src/tdb_encode.c: machine integers become `Nat` with explicit wrap-around
where the C code can overflow, the `prev_items` array becomes a total
function, file writes become an explicit trace, and the external entropy
coder (out of scope per the specification) is represented by the bits it
contributes to the trail buffer.
-/

namespace TrailDB

/-- Wrap-around subtraction of 32-bit unsigned values, as performed by
`buf[j].timestamp -= prev_timestamp` on `uint32_t` operands in `group_events`
(src/tdb_encode.c:79). Both operands are assumed to be below `2 ^ 32`. -/
def u32sub (a b : Nat) : Nat := (a + 2 ^ 32 - b) % 2 ^ 32

/-- The constant `UINT32_MAX = 2 ^ 32 - 1` used by the 4 GiB guards of
`encode_trails` (src/tdb_encode.c:205,288). -/
def UINT32_MAX : Nat := 2 ^ 32 - 1

/-- An input event (`tdb_event`, as consumed by src/tdb_encode.c):
`prev_event_idx` is a 1-based back-reference into the event array, 0 meaning
no predecessor. -/
structure tdb_event where
  timestamp : Nat
  item_zero : Nat
  num_items : Nat
  prev_event_idx : Nat
deriving Repr, DecidableEq, Inhabited

/-- A grouped record (`tdb_cookie_event`): after grouping, `timestamp` holds
the tagged delta-encoded value (low 8 bits are the validity tag). -/
structure tdb_cookie_event where
  cookie_id : Nat
  item_zero : Nat
  num_items : Nat
  timestamp : Nat
deriving Repr, DecidableEq, Inhabited

/-- The backlink walk of `group_events` (src/tdb_encode.c:54-70): a do-while
loop that first materializes the current event into the group buffer and only
then inspects `prev_event_idx`, following `prev_event_idx - 1` when nonzero.
`fuel` bounds the number of backlink follows; the C loop terminates exactly on
chains that reach a 0 back-reference, for which a fuel of `events.length`
suffices. -/
def walkChain (events : List tdb_event) : tdb_event → Nat → List tdb_event
  | ev, 0 => [ev]
  | ev, fuel + 1 =>
    if ev.prev_event_idx = 0 then [ev]
    else ev :: walkChain events (events.getD (ev.prev_event_idx - 1) default) fuel

/-- The per-entity sort of grouped events by timestamp (`qsort` with the
`compare` of src/tdb_encode.c:17-27, called at line 74). At the level of the
timestamp values the comparator is total and antisymmetric, so any comparison
sort produces this exact list. -/
def sortTs (ts : List Nat) : List Nat := List.insertionSort (· ≤ ·) ts

/-- Result of the delta-encoding loop of `group_events` (src/tdb_encode.c:77-95)
for one contiguous stretch of records: the stored (tagged) timestamps, the
running maximum valid delta, and the running invalid count. -/
structure DeltaOut where
  stored : List Nat
  maxDelta : Nat
  numInvalid : Nat
deriving Repr, DecidableEq

/-- The delta-encoding loop of `group_events` (src/tdb_encode.c:77-95).
`prev` is `prev_timestamp`, `maxd` the running `*max_timestamp_delta`, `ninv`
the running `num_invalid`. A delta below `2 ^ 24` is stored shifted left by 8
(validity tag 0) and advances the reference to the record's original
timestamp; otherwise the sentinel 1 is stored, the invalid count grows, and
the reference is kept. -/
def deltaEncodeGo (prev maxd ninv : Nat) : List Nat → DeltaOut
  | [] => ⟨[], maxd, ninv⟩
  | t :: rest =>
    let d := u32sub t prev
    if d < 2 ^ 24 then
      let r := deltaEncodeGo t (max maxd d) ninv rest
      ⟨d * 256 :: r.stored, r.maxDelta, r.numInvalid⟩
    else
      let r := deltaEncodeGo prev maxd (ninv + 1) rest
      ⟨1 :: r.stored, r.maxDelta, r.numInvalid⟩

/-- Grouping of a single entity (src/tdb_encode.c:73-95): sort the entity's
timestamps, then delta-encode them against the base timestamp. -/
def groupEntity (base : Nat) (ts : List Nat) : DeltaOut :=
  deltaEncodeGo base 0 0 (sortTs ts)

/-- The state of `group_events` (src/tdb_encode.c:37-43) across entities:
the grouped runs written so far, `*max_timestamp_delta`, `num_invalid`, and
the local variable `idx` of line 38, which the function initializes to 0 and
never updates; it is carried verbatim because the abort gate divides by it. -/
structure GroupResult where
  grouped : List (List Nat)
  maxDelta : Nat
  numInvalid : Nat
  idx : Nat
deriving Repr, DecidableEq

/-- The entity loop of `group_events` (src/tdb_encode.c:45-101) at the level of
timestamps: `prev_timestamp` restarts at `base` for each entity (line 77),
while `max_timestamp_delta` and `num_invalid` accumulate across entities. -/
def groupEventsGo (base : Nat) (acc : GroupResult) : List (List Nat) → GroupResult
  | [] => acc
  | ts :: rest =>
    let r := deltaEncodeGo base acc.maxDelta acc.numInvalid (sortTs ts)
    groupEventsGo base ⟨acc.grouped ++ [r.stored], r.maxDelta, r.numInvalid, acc.idx⟩ rest

/-- `group_events` (src/tdb_encode.c:29-108) at the level of timestamps:
`entityTs` lists, per entity id in increasing order, the timestamps gathered
by that entity's backlink walk. -/
def group_events (base : Nat) (entityTs : List (List Nat)) : GroupResult :=
  groupEventsGo base ⟨[], 0, 0, 0⟩ entityTs

/-- The abort gate of `group_events` (src/tdb_encode.c:103):
`num_invalid / (float)idx > MAX_INVALID_RATIO` with the constant 0.005.
For `idx = 0` — the only case the program can reach, since `idx` is never
incremented — IEEE 754 division yields positive infinity when
`num_invalid > 0` (and `inf > 0.005` holds) and NaN when `num_invalid = 0`
(and `NaN > 0.005` is false), so the comparison is exactly `0 < num_invalid`.
The `idx ≠ 0` branch is modelled as the exact rational comparison; it is
unreachable in the program. -/
def invalidGateFires (numInvalid idx : Nat) : Bool :=
  if idx = 0 then decide (0 < numInvalid)
  else decide ((5 : ℚ) / 1000 < (numInvalid : ℚ) / (idx : ℚ))

/-- One step of the edge-encoding loop body (src/tdb_encode.c:125-135): emit
the item and update `prev_items[field]` when the item differs from the table
entry of its field. The field-extraction function `field` models
`tdb_item_field`, which is declared outside this source excerpt; the
specification describes it only as a pure function from an item to its field
id, so it is a parameter. The `prev_items` array is modelled as a total
function from field ids to items. -/
def edgeStep (field : Nat → Nat) (acc : List Nat × (Nat → Nat)) (item : Nat) :
    List Nat × (Nat → Nat) :=
  if acc.2 (field item) ≠ item then
    (acc.1 ++ [item], fun f => if f = field item then item else acc.2 f)
  else acc

/-- `edge_encode_items` (src/tdb_encode.c:110-139): for a record whose validity
tag is 0, scan the items `items[item_zero + k]` for `k < num_items` in order,
keeping exactly those that differ from the last-seen item of their field and
updating the table entry of each kept item; for a record with a nonzero tag,
return no items and leave the table unchanged. -/
def edge_encode_items (field : Nat → Nat) (items : List Nat) (tbl : Nat → Nat)
    (ev : tdb_cookie_event) : List Nat × (Nat → Nat) :=
  if ev.timestamp % 256 = 0 then
    (List.range ev.num_items).foldl
      (fun acc k => edgeStep field acc (items.getD (ev.item_zero + k) 0)) ([], tbl)
  else ([], tbl)

/-- Edge encoding as the specification words it (§4.3): the stateful filter
over an item list that keeps exactly the items differing from the last-seen
value of their field and updates the table entry of each kept item. This
definition follows the specification's contract and is compared against
`edge_encode_items`. -/
def edgeSpecFilter (field : Nat → Nat) (tbl : Nat → Nat) : List Nat → List Nat × (Nat → Nat)
  | [] => ([], tbl)
  | it :: rest =>
    if tbl (field it) = it then edgeSpecFilter field tbl rest
    else
      let r := edgeSpecFilter field (fun f => if f = field it then it else tbl f) rest
      (it :: r.1, r.2)

/-- The inner event loop of `encode_trails` (src/tdb_encode.c:245-271) at the
edge-encoding level: thread the `prev_items` table through one entity's
events, collecting each event's edge-encoded items. -/
def encodeEntityEvents (field : Nat → Nat) (items : List Nat) (tbl : Nat → Nat) :
    List tdb_cookie_event → List (List Nat) × (Nat → Nat)
  | [] => ([], tbl)
  | ev :: rest =>
    let r := edge_encode_items field items tbl ev
    let r2 := encodeEntityEvents field items r.2 rest
    (r.1 :: r2.1, r2.2)

/-- The per-entity loop of `encode_trails` restricted to edge encoding: the
`prev_items` table is reset to all zeros at the start of each run
(memset, src/tdb_encode.c:243), and the physical buffer state left behind by
one run is what the next run receives before its reset. -/
def encodeRunsEdge (field : Nat → Nat) (items : List Nat) :
    (Nat → Nat) → List (List tdb_cookie_event) → List (List (List Nat))
  | _, [] => []
  | _tbl, run :: rest =>
    let r := encodeEntityEvents field items (fun _ => 0) run
    r.1 :: encodeRunsEdge field items r.2 rest

/-- `timestamp_range` (src/tdb_encode.c:141-156): fold over all event
timestamps tracking the minimum (seeded with `UINT32_MAX`) and the maximum
(seeded with 0). -/
def timestamp_range (ts : List Nat) : Nat × Nat :=
  ts.foldl (fun mm t => (if t < mm.1 then t else mm.1, if mm.2 < t then t else mm.2))
    (UINT32_MAX, 0)

/-- `store_info` (src/tdb_encode.c:158-180): the single line written to the
`info` file, the format string `"%llu %llu %u %u %u\n"` applied to
`(num_cookies, num_events, min_timestamp, max_timestamp,
max_timestamp_delta)`. -/
def store_info (num_events num_cookies min_timestamp max_timestamp
    max_timestamp_delta : Nat) : String :=
  Nat.repr num_cookies ++ " " ++ Nat.repr num_events ++ " " ++ Nat.repr min_timestamp
    ++ " " ++ Nat.repr max_timestamp ++ " " ++ Nat.repr max_timestamp_delta ++ "\n"

/-- Byte length of a bitstream of `offs` bits as computed by `encode_trails`
(src/tdb_encode.c:274-278): `offs / 8 + 1` when `offs` is not a multiple of 8,
else `offs / 8`. -/
def byteLen (offs : Nat) : Nat := if offs % 8 ≠ 0 then offs / 8 + 1 else offs / 8

/-- Bitwise OR of the binary digits of `val`, least significant first, into
the front of a bit list, leaving bits beyond the list (and list entries beyond
the digits of `val`) unchanged. -/
def orBits : Nat → List Bool → List Bool
  | _, [] => []
  | val, b :: rest => (b || (val % 2 == 1)) :: orBits (val / 2) rest

/-- Modelled from the spec: `write_bits` is declared in ddb_bits.h, which is
not part of this source excerpt. Per §3 of the specification the head of a
trail records, in its first 3 bits, how many trailing bits of the last byte
are padding, and the call site (src/tdb_encode.c:276, commented "write the
length residual") passes the buffer, the bit offset 0 and the residual value;
the function is therefore modelled as OR-ing the value's binary digits into
the buffer starting at the given bit offset, least significant bit first,
leaving all other bits unchanged. -/
def write_bits (buf : List Bool) (offs val : Nat) : List Bool :=
  buf.take offs ++ orBits val (buf.drop offs)

/-- Finishing one entity's trail at the bit-buffer level
(src/tdb_encode.c:228-291): the buffer starts zeroed (calloc at line 216 and
memset at line 291), bit offset 3 reserves the header (line 235), `content`
holds the bits the external entropy coder appended, the length residual
`8 - offs % 8` is written at bit offset 0 when `offs` is not a multiple of 8
(lines 274-277), and the first `trail_size` bytes are appended to the file.
Returns the `trail_size * 8` bits of those bytes and `trail_size`. -/
def finishTrail (content : List Bool) : List Bool × Nat :=
  let offs := 3 + content.length
  let buf := List.replicate 3 false ++ content
    ++ List.replicate (byteLen offs * 8 - offs) false
  if offs % 8 ≠ 0 then (write_bits buf 0 (8 - offs % 8), offs / 8 + 1)
  else (buf, offs / 8)

/-- A write to the trail file: a 4-byte TOC slot write at byte offset
`slot * 4`, or an append of a trail's bytes at the given end-of-file
offset. -/
inductive WOp where
  | tocSlot : Nat → Nat → WOp
  | append : Nat → List Nat → WOp
deriving Repr, DecidableEq

/-- The per-entity loop of `encode_trails` (src/tdb_encode.c:228-292): for the
`i`-th run, write the TOC slot of entity `i` at byte offset `i * 4`
(lines 240-241), append the trail bytes at the cumulative offset (lines
284-285), advance the offset and abort the run once it reaches `UINT32_MAX`
(lines 287-289; the check runs after the append). After the last run the
sentinel slot `num_cookies` is written (lines 295-296). The slot index equals
the run index because `group_events` emits one contiguous run per entity in
increasing entity-id order. Returns the write trace and the final offset,
`none` on abort. -/
def encodeGo (num_cookies : Nat) : Nat → Nat → List (List Nat) → List WOp × Option Nat
  | _, cur, [] => ([WOp.tocSlot num_cookies cur], some cur)
  | i, cur, tb :: rest =>
    let cur' := cur + tb.length
    if UINT32_MAX ≤ cur' then ([WOp.tocSlot i cur, WOp.append cur tb], none)
    else
      let r := encodeGo num_cookies (i + 1) cur' rest
      (WOp.tocSlot i cur :: WOp.append cur tb :: r.1, r.2)

/-- `encode_trails` (src/tdb_encode.c:182-304) at the level of the trail file:
`trails` holds, per entity in increasing entity-id order, the bytes of its
finished trail. The cumulative offset starts at the TOC size
`(num_cookies + 1) * 4`; if that already reaches `UINT32_MAX`, the run aborts
before the trail file is even created (lines 205-208). -/
def encode_trails (num_cookies : Nat) (trails : List (List Nat)) : List WOp × Option Nat :=
  if UINT32_MAX ≤ (num_cookies + 1) * 4 then ([], none)
  else encodeGo num_cookies 0 ((num_cookies + 1) * 4) trails

/-- The writes `encode_trails` performs for a list of consecutive runs,
starting at run index `i` and cumulative offset `cur`. -/
def entityWriteList (i cur : Nat) : List (List Nat) → List WOp
  | [] => []
  | tb :: rest =>
    WOp.tocSlot i cur :: WOp.append cur tb :: entityWriteList (i + 1) (cur + tb.length) rest

/-- Total byte length of a list of byte lists. -/
def sumLen (ls : List (List Nat)) : Nat := (ls.map List.length).sum

/-- The 4 little-endian bytes of a 32-bit value, as laid down by
`SAFE_WRITE(&file_offs, 4, ...)` on a little-endian machine
(src/tdb_encode.c:241,296). -/
def toLE4 (v : Nat) : List Nat :=
  [v % 256, v / 256 % 256, v / 65536 % 256, v / 16777216 % 256]

/-- Extend a file image with zero bytes up to length `k` (POSIX semantics of
a write after a seek past the current end of file). -/
def padTo (file : List Nat) (k : Nat) : List Nat :=
  file ++ List.replicate (k - file.length) 0

/-- Write `bytes` into the file image at byte position `pos`, zero-filling any
gap between the current end of file and `pos`. -/
def writeAt (file : List Nat) (pos : Nat) (bytes : List Nat) : List Nat :=
  (padTo file (pos + bytes.length)).take pos ++ bytes
    ++ (padTo file (pos + bytes.length)).drop (pos + bytes.length)

/-- Apply one trail-file write to the file image. -/
def applyWrite (file : List Nat) : WOp → List Nat
  | WOp.tocSlot slot v => writeAt file (slot * 4) (toLE4 v)
  | WOp.append off bytes => writeAt file off bytes

/-- The file image produced by a trace of writes. -/
def runWrites (file : List Nat) (ws : List WOp) : List Nat :=
  ws.foldl applyWrite file

/-- Concatenation of a list of lists. -/
def joinAll {α : Type} : List (List α) → List α
  | [] => []
  | l :: ls => l ++ joinAll ls

/-- Reconstruction of absolute timestamps from one grouped run (§8 of the
specification): start the running reference at the base timestamp; on a record
with validity tag 0 add the upper 24 bits of the stored value to the reference
and output the result, advancing the reference; skip records with a nonzero
tag without touching the reference. -/
def decodeValidFrom (ref : Nat) : List Nat → List Nat
  | [] => []
  | s :: rest =>
    if s % 256 = 0 then (ref + s / 256) :: decodeValidFrom (ref + s / 256) rest
    else decodeValidFrom ref rest

/-- The original timestamps of the records the delta-encoding loop tags valid,
in order: exactly the records on which the reference advances. -/
def validOriginalsFrom (prev : Nat) : List Nat → List Nat
  | [] => []
  | t :: rest =>
    if u32sub t prev < 2 ^ 24 then t :: validOriginalsFrom t rest
    else validOriginalsFrom prev rest

/-- The deltas of the valid records of a stored run: the upper 24 bits of
every stored value whose low 8 bits (the validity tag) are zero. -/
def storedDeltas (stored : List Nat) : List Nat :=
  (stored.filter (fun s => s % 256 == 0)).map (fun s => s / 256)

/-! Helper lemmas about the delta encoder. -/

theorem u32sub_of_le {a b : Nat} (hba : b ≤ a) (ha : a < 2 ^ 32) : u32sub a b = a - b := by
  unfold u32sub
  have h1 : a + 2 ^ 32 - b = (a - b) + 2 ^ 32 := by omega
  rw [h1, Nat.add_mod_right]
  exact Nat.mod_eq_of_lt (by omega)

theorem deltaEncodeGo_stored_eq : ∀ (ts : List Nat) (prev maxd ninv : Nat),
    (deltaEncodeGo prev maxd ninv ts).stored = (deltaEncodeGo prev 0 0 ts).stored
  | [], _, _, _ => rfl
  | t :: rest, prev, maxd, ninv => by
    simp only [deltaEncodeGo]
    by_cases hd : u32sub t prev < 2 ^ 24
    · rw [if_pos hd, if_pos hd]
      simp only []
      rw [deltaEncodeGo_stored_eq rest t (max maxd (u32sub t prev)) ninv,
        deltaEncodeGo_stored_eq rest t (max 0 (u32sub t prev)) 0]
    · rw [if_neg hd, if_neg hd]
      simp only []
      rw [deltaEncodeGo_stored_eq rest prev maxd (ninv + 1),
        deltaEncodeGo_stored_eq rest prev 0 1]

theorem groupEventsGo_grouped (base : Nat) : ∀ (ets : List (List Nat)) (acc : GroupResult),
    (groupEventsGo base acc ets).grouped
      = acc.grouped ++ ets.map (fun ts => (groupEntity base ts).stored)
  | [], acc => by simp [groupEventsGo]
  | ts :: rest, acc => by
    simp only [groupEventsGo, List.map_cons]
    rw [groupEventsGo_grouped base rest]
    simp only [groupEntity,
      deltaEncodeGo_stored_eq (sortTs ts) base acc.maxDelta acc.numInvalid]
    rw [List.append_assoc, List.singleton_append]

theorem group_events_grouped (base : Nat) (ets : List (List Nat)) :
    (group_events base ets).grouped = ets.map (fun ts => (groupEntity base ts).stored) := by
  rw [group_events, groupEventsGo_grouped]
  rfl

theorem decode_deltaEncode :
    ∀ (ts : List Nat) (prev maxd ninv : Nat), prev < 2 ^ 32 → List.Sorted (· ≤ ·) ts →
      (∀ t ∈ ts, prev ≤ t) → (∀ t ∈ ts, t < 2 ^ 32) →
      decodeValidFrom prev (deltaEncodeGo prev maxd ninv ts).stored
        = validOriginalsFrom prev ts
  | [], _, _, _, _, _, _, _ => rfl
  | t :: rest, prev, maxd, ninv, hprev, hs, hge, hlt => by
    have ht : prev ≤ t := hge t (by simp)
    have ht32 : t < 2 ^ 32 := hlt t (by simp)
    have hsub : u32sub t prev = t - prev := u32sub_of_le ht ht32
    rw [List.sorted_cons] at hs
    simp only [deltaEncodeGo, validOriginalsFrom]
    by_cases hd : u32sub t prev < 2 ^ 24
    · rw [if_pos hd, if_pos hd]
      simp only [decodeValidFrom]
      have hmod : (u32sub t prev * 256) % 256 = 0 := Nat.mul_mod_left _ _
      rw [if_pos hmod]
      have hdiv : u32sub t prev * 256 / 256 = u32sub t prev :=
        Nat.mul_div_cancel _ (by omega)
      have hrecon : prev + u32sub t prev * 256 / 256 = t := by rw [hdiv, hsub]; omega
      rw [hrecon]
      have htail := decode_deltaEncode rest t (max maxd (u32sub t prev)) ninv ht32 hs.2
        (fun r hr => hs.1 r hr) (fun r hr => hlt r (List.mem_cons_of_mem t hr))
      rw [htail]
    · rw [if_neg hd, if_neg hd]
      simp only [decodeValidFrom]
      rw [if_neg (by decide : ¬ (1 : Nat) % 256 = 0)]
      exact decode_deltaEncode rest prev maxd (ninv + 1) hprev hs.2
        (fun r hr => hge r (List.mem_cons_of_mem t hr))
        (fun r hr => hlt r (List.mem_cons_of_mem t hr))

theorem validOriginals_sublist :
    ∀ (ts : List Nat) (prev : Nat), List.Sublist (validOriginalsFrom prev ts) ts
  | [], _ => List.Sublist.refl _
  | t :: rest, prev => by
    simp only [validOriginalsFrom]
    by_cases hd : u32sub t prev < 2 ^ 24
    · rw [if_pos hd]
      exact (validOriginals_sublist rest t).cons₂ t
    · rw [if_neg hd]
      exact (validOriginals_sublist rest prev).cons t

/-- C3: for every entity and every valid-tagged record in its grouped run,
reconstructing absolute timestamps by cumulatively adding the stored deltas
(the upper 24 bits of each valid record's stored timestamp), with the running
reference restarted at the global base timestamp at the start of each entity
and advanced only on valid records, reproduces the original event timestamps
exactly; the reconstructed list is exactly the valid records' original
timestamps, a sublist of the entity's sorted timestamps. The hypotheses state
that the base timestamp is the global minimum (as in `tdb_encode`, which
passes `min_timestamp`) and that all timestamps are 32-bit values, which makes
every valid record's timestamp lie within `2 ^ 24` of the last valid
reference by the grouping rule itself. -/
theorem claim_C3_delta_roundtrip (base : Nat) (entityTs : List (List Nat))
    (hbase : base < 2 ^ 32)
    (hts : ∀ ts ∈ entityTs, ∀ t ∈ ts, base ≤ t ∧ t < 2 ^ 32) :
    ∀ i, i < entityTs.length →
      decodeValidFrom base ((group_events base entityTs).grouped.getD i [])
          = validOriginalsFrom base (sortTs (entityTs.getD i []))
        ∧ List.Sublist (validOriginalsFrom base (sortTs (entityTs.getD i []))) (sortTs (entityTs.getD i [])) := by
  intro i hi
  rw [group_events_grouped]
  have hgetD : (entityTs.map (fun ts => (groupEntity base ts).stored)).getD i []
      = (groupEntity base (entityTs.getD i [])).stored := by
    unfold List.getD
    rw [List.get?_map, List.get?_eq_get hi]
    rfl
  rw [hgetD]
  have hmem : entityTs.getD i [] ∈ entityTs := by
    unfold List.getD
    rw [List.get?_eq_get hi]
    exact List.get_mem entityTs i hi
  have hall := hts (entityTs.getD i []) hmem
  constructor
  · unfold groupEntity
    apply decode_deltaEncode _ _ _ _ hbase
    · exact List.sorted_insertionSort (· ≤ ·) (entityTs.getD i [])
    · intro t htmem
      exact (hall t ((List.mem_insertionSort (· ≤ ·)).mp htmem)).1
    · intro t htmem
      exact (hall t ((List.mem_insertionSort (· ≤ ·)).mp htmem)).2
  · exact validOriginals_sublist _ _

/-- Witness for C3 at the specification's end-to-end example: one entity with
timestamps `[100, 100, 500]` and base timestamp 100. -/
theorem claim_C3_delta_roundtrip_witness :
    decodeValidFrom 100 ((group_events 100 [[100, 100, 500]]).grouped.getD 0 [])
        = validOriginalsFrom 100 (sortTs [100, 100, 500])
      ∧ List.Sublist (validOriginalsFrom 100 (sortTs [100, 100, 500])) (sortTs [100, 100, 500]) :=
  claim_C3_delta_roundtrip 100 [[100, 100, 500]] (by decide) (by decide) 0 (by decide)

/-- C4: for every record whose delta from the last valid reference does not
fit in 24 bits, the grouper stores the sentinel value 1 (so the low-8-bit
validity tag is nonzero) without advancing the reference — the remaining
records are delta-encoded against the unchanged reference — and an event
carrying a nonzero validity tag contributes zero items to the edge-encoded
stream and leaves the per-field last-seen table unchanged. -/
theorem claim_C4_invalid_sentinel (prev t : Nat) (rest : List Nat) (maxd ninv : Nat)
    (hd : ¬ u32sub t prev < 2 ^ 24) :
    deltaEncodeGo prev maxd ninv (t :: rest)
        = ⟨1 :: (deltaEncodeGo prev maxd (ninv + 1) rest).stored,
           (deltaEncodeGo prev maxd (ninv + 1) rest).maxDelta,
           (deltaEncodeGo prev maxd (ninv + 1) rest).numInvalid⟩
      ∧ (1 : Nat) % 256 ≠ 0
      ∧ ∀ (field : Nat → Nat) (items : List Nat) (tbl : Nat → Nat) (ev : tdb_cookie_event),
          ev.timestamp % 256 ≠ 0 → edge_encode_items field items tbl ev = ([], tbl) := by
  refine ⟨?_, by decide, ?_⟩
  · simp only [deltaEncodeGo]
    rw [if_neg hd]
  · intro field items tbl ev hev
    simp only [edge_encode_items]
    rw [if_neg hev]

/-- Witness for C4: delta `2 ^ 24` from reference 0 is tagged invalid with
sentinel 1, and an event with stored timestamp 1 edge-encodes to nothing. -/
theorem claim_C4_invalid_sentinel_witness :
    deltaEncodeGo 0 0 0 [2 ^ 24] = ⟨[1], 0, 1⟩
      ∧ edge_encode_items (fun it => it % 256) [] (fun _ => 0) ⟨0, 0, 0, 1⟩
          = ([], fun _ => 0) := by
  have h := claim_C4_invalid_sentinel 0 (2 ^ 24) [] 0 0 (by decide)
  exact ⟨by rw [h.1]; rfl, h.2.2 _ _ _ _ (by decide)⟩

/-! Edge-encoding lemmas. -/

theorem edge_foldl (field : Nat → Nat) :
    ∀ (l : List Nat) (out : List Nat) (tbl : Nat → Nat),
      l.foldl (edgeStep field) (out, tbl)
        = (out ++ (edgeSpecFilter field tbl l).1, (edgeSpecFilter field tbl l).2)
  | [], out, tbl => by simp [edgeSpecFilter]
  | it :: rest, out, tbl => by
    simp only [List.foldl_cons, edgeSpecFilter, edgeStep]
    by_cases h : tbl (field it) = it
    · rw [if_neg (not_not_intro h), if_pos h]
      exact edge_foldl field rest out tbl
    · rw [if_pos h, if_neg h]
      rw [edge_foldl field rest (out ++ [it]) _]
      simp [List.append_assoc]

theorem range_map_getD (items : List Nat) :
    ∀ (n z : Nat), z + n ≤ items.length →
      (List.range n).map (fun k => items.getD (z + k) 0)
        = (items.drop z).take n
  | 0, z, _ => by simp
  | n + 1, z, h => by
    rw [List.range_succ, List.map_append, range_map_getD items n z (by omega)]
    have hzn : z + n < items.length := by omega
    rw [List.take_succ, List.getElem?_drop, List.getElem?_eq_getElem hzn]
    simp [List.getD, List.getElem?_eq_getElem hzn]

/-- C6: for every valid event whose item range lies inside the item array,
`edge_encode_items` produces exactly the result of the specification's
stateful filter on the event's item slice
`[item_zero, item_zero + num_items)`: the subset of its items, in item-array
order, whose value differs from the last-seen value recorded for that item's
field, together with the table updated at each emitted item's field. -/
theorem claim_C6_edge_encode_filter (field : Nat → Nat) (items : List Nat)
    (tbl : Nat → Nat) (ev : tdb_cookie_event) (hvalid : ev.timestamp % 256 = 0)
    (hbound : ev.item_zero + ev.num_items ≤ items.length) :
    edge_encode_items field items tbl ev
      = edgeSpecFilter field tbl ((items.drop ev.item_zero).take ev.num_items) := by
  simp only [edge_encode_items]
  rw [if_pos hvalid]
  have hmap : (List.range ev.num_items).map (fun k => items.getD (ev.item_zero + k) 0)
      = (items.drop ev.item_zero).take ev.num_items :=
    range_map_getD items ev.num_items ev.item_zero hbound
  have hfm := List.foldl_map (fun k => items.getD (ev.item_zero + k) 0)
    (edgeStep field) (List.range ev.num_items) (([], tbl) : List Nat × (Nat → Nat))
  rw [hmap] at hfm
  rw [← hfm, edge_foldl]
  simp

/-- Witness for C6 on the specification's example fields: items packing field
in the low 8 bits, a three-item event. -/
theorem claim_C6_edge_encode_filter_witness :
    edge_encode_items (fun it => it % 256) [257, 258, 257] (fun _ => 0) ⟨0, 0, 3, 0⟩
      = edgeSpecFilter (fun it => it % 256) (fun _ => 0)
          (([257, 258, 257].drop 0).take 3) :=
  claim_C6_edge_encode_filter (fun it => it % 256) [257, 258, 257] (fun _ => 0)
    ⟨0, 0, 3, 0⟩ (by decide) (by decide)

theorem encodeRunsEdge_map (field : Nat → Nat) (items : List Nat) :
    ∀ (runs : List (List tdb_cookie_event)) (tbl : Nat → Nat),
      encodeRunsEdge field items tbl runs
        = runs.map (fun run => (encodeEntityEvents field items (fun _ => 0) run).1)
  | [], _ => rfl
  | run :: rest, tbl => by
    simp only [encodeRunsEdge, List.map_cons]
    rw [encodeRunsEdge_map field items rest]

/-- C7: the per-entity last-seen table is reset to all zeros at the start of
every entity's trail encoding, so the edge-encoded output of a sequence of
entity runs is the per-run function of each run alone, independent of the
table state left by earlier runs: encoding entity A after entity B (in either
order) yields for A exactly the output of encoding A alone from a fresh
table, and re-running the same runs yields identical output. -/
theorem claim_C7_entity_isolation (field : Nat → Nat) (items : List Nat) :
    (∀ (tbl : Nat → Nat) (runs : List (List tdb_cookie_event)),
        encodeRunsEdge field items tbl runs
          = runs.map (fun run => (encodeEntityEvents field items (fun _ => 0) run).1))
      ∧ (∀ (A B : List tdb_cookie_event) (tbl tbl' : Nat → Nat),
          (encodeRunsEdge field items tbl [B, A]).getD 1 []
              = (encodeEntityEvents field items (fun _ => 0) A).1
            ∧ (encodeRunsEdge field items tbl' [A, B]).getD 0 []
              = (encodeEntityEvents field items (fun _ => 0) A).1)
      ∧ (∀ (tbl tbl' : Nat → Nat) (runs : List (List tdb_cookie_event)),
          encodeRunsEdge field items tbl runs = encodeRunsEdge field items tbl' runs) := by
  refine ⟨fun tbl runs => encodeRunsEdge_map field items runs tbl, ?_, ?_⟩
  · intro A B tbl tbl'
    rw [encodeRunsEdge_map, encodeRunsEdge_map]
    exact ⟨rfl, rfl⟩
  · intro tbl tbl' runs
    rw [encodeRunsEdge_map, encodeRunsEdge_map]

/-! The invalid-ratio gate. -/

theorem groupEventsGo_idx (base : Nat) :
    ∀ (ets : List (List Nat)) (acc : GroupResult),
      (groupEventsGo base acc ets).idx = acc.idx
  | [], _ => rfl
  | _ :: rest, acc => groupEventsGo_idx base rest _

theorem group_events_idx (base : Nat) (ets : List (List Nat)) :
    (group_events base ets).idx = 0 :=
  groupEventsGo_idx base ets _

set_option maxRecDepth 100000 in
/-- C1 (code bug): the abort gate of `group_events` divides `num_invalid` by
the local variable `idx`, which is initialized to 0 and never incremented, so
under the IEEE semantics of the comparison the gate fires exactly when at
least one record is invalid — not when the invalid ratio exceeds 0.5% of all
processed records. On an input of 200 records with exactly one invalid record
(ratio exactly 0.5%, which the claim requires to pass this gate), the gate
fires and the encode aborts. -/
theorem claim_C1_invalid_gate_code_bug :
    (∀ (base : Nat) (ets : List (List Nat)), (group_events base ets).idx = 0)
      ∧ (∀ n : Nat, invalidGateFires n 0 = decide (0 < n))
      ∧ (group_events 0 [List.replicate 199 0 ++ [2 ^ 24]]).numInvalid = 1
      ∧ (List.replicate 199 (0 : Nat) ++ [2 ^ 24]).length = 200
      ∧ invalidGateFires (group_events 0 [List.replicate 199 0 ++ [2 ^ 24]]).numInvalid
          (group_events 0 [List.replicate 199 0 ++ [2 ^ 24]]).idx = true
      ∧ 1000 * (group_events 0 [List.replicate 199 0 ++ [2 ^ 24]]).numInvalid ≤ 5 * 200 := by
  refine ⟨group_events_idx, ?_, by decide, by simp, by decide, by decide⟩
  intro n
  simp [invalidGateFires]

/-! Range scan, decimal rendering, and maximum-delta lemmas for the info file. -/

theorem timestamp_range_foldl :
    ∀ (ts : List Nat) (mn mx : Nat),
      ts.foldl (fun mm t => (if t < mm.1 then t else mm.1, if mm.2 < t then t else mm.2)) (mn, mx)
        = (ts.foldl min mn, ts.foldl max mx)
  | [], _, _ => rfl
  | t :: rest, mn, mx => by
    have h1 : (if t < mn then t else mn) = min mn t := by split_ifs with h <;> omega
    have h2 : (if mx < t then t else mx) = max mx t := by split_ifs with h <;> omega
    simp only [List.foldl_cons, h1, h2]
    exact timestamp_range_foldl rest (min mn t) (max mx t)

theorem timestamp_range_eq (ts : List Nat) :
    timestamp_range ts = (ts.foldl min UINT32_MAX, ts.foldl max 0) :=
  timestamp_range_foldl ts UINT32_MAX 0

theorem foldl_min_le_init : ∀ (ts : List Nat) (a : Nat), ts.foldl min a ≤ a
  | [], a => le_refl a
  | x :: rest, a => le_trans (foldl_min_le_init rest (min a x)) (min_le_left a x)

theorem foldl_min_le : ∀ (ts : List Nat) (a t : Nat), t ∈ ts → ts.foldl min a ≤ t
  | [], _, _, h => absurd h (List.not_mem_nil _)
  | x :: rest, a, t, h => by
    rcases List.mem_cons.mp h with rfl | h2
    · exact le_trans (foldl_min_le_init rest (min a t)) (min_le_right a t)
    · exact foldl_min_le rest (min a x) t h2

theorem foldl_min_mem : ∀ (ts : List Nat) (a : Nat), ts.foldl min a = a ∨ ts.foldl min a ∈ ts
  | [], _ => Or.inl rfl
  | x :: rest, a => by
    rcases foldl_min_mem rest (min a x) with h | h
    · rw [List.foldl_cons, h]
      rcases le_total a x with hax | hxa
      · exact Or.inl (min_eq_left hax)
      · exact Or.inr (by rw [min_eq_right hxa]; exact List.mem_cons_self x rest)
    · exact Or.inr (List.mem_cons_of_mem x h)

theorem foldl_max_ge_init : ∀ (ts : List Nat) (a : Nat), a ≤ ts.foldl max a
  | [], a => le_refl a
  | x :: rest, a => le_trans (le_max_left a x) (foldl_max_ge_init rest (max a x))

theorem foldl_max_ge : ∀ (ts : List Nat) (a t : Nat), t ∈ ts → t ≤ ts.foldl max a
  | [], _, _, h => absurd h (List.not_mem_nil _)
  | x :: rest, a, t, h => by
    rcases List.mem_cons.mp h with rfl | h2
    · exact le_trans (le_max_right a t) (foldl_max_ge_init rest (max a t))
    · exact foldl_max_ge rest (max a x) t h2

theorem foldl_max_mem : ∀ (ts : List Nat) (a : Nat), ts.foldl max a = a ∨ ts.foldl max a ∈ ts
  | [], _ => Or.inl rfl
  | x :: rest, a => by
    rcases foldl_max_mem rest (max a x) with h | h
    · rw [List.foldl_cons, h]
      rcases le_total a x with hax | hxa
      · exact Or.inr (by rw [max_eq_right hax]; exact List.mem_cons_self x rest)
      · exact Or.inl (max_eq_left hxa)
    · exact Or.inr (List.mem_cons_of_mem x h)

theorem timestamp_range_min (ts : List Nat) (hne : ts ≠ [])
    (hle : ∀ t ∈ ts, t ≤ UINT32_MAX) :
    (timestamp_range ts).1 ∈ ts ∧ ∀ t ∈ ts, (timestamp_range ts).1 ≤ t := by
  rw [timestamp_range_eq]
  refine ⟨?_, fun t ht => foldl_min_le ts UINT32_MAX t ht⟩
  rcases foldl_min_mem ts UINT32_MAX with h | h
  · obtain ⟨t0, ht0⟩ := List.exists_mem_of_ne_nil ts hne
    have h1 := foldl_min_le ts UINT32_MAX t0 ht0
    have h2 := hle t0 ht0
    rw [h]
    have ht0e : t0 = UINT32_MAX := le_antisymm h2 (h ▸ h1)
    exact ht0e ▸ ht0
  · exact h

theorem timestamp_range_max (ts : List Nat) (hne : ts ≠ []) :
    (timestamp_range ts).2 ∈ ts ∧ ∀ t ∈ ts, t ≤ (timestamp_range ts).2 := by
  rw [timestamp_range_eq]
  refine ⟨?_, fun t ht => foldl_max_ge ts 0 t ht⟩
  rcases foldl_max_mem ts 0 with h | h
  · obtain ⟨t0, ht0⟩ := List.exists_mem_of_ne_nil ts hne
    have h1 := foldl_max_ge ts 0 t0 ht0
    rw [h]
    have ht0e : t0 = 0 := Nat.le_zero.mp (h ▸ h1)
    exact ht0e ▸ ht0
  · exact h

theorem digitChar_isDigit (m : Nat) (h : m < 10) : (Nat.digitChar m).isDigit = true := by
  interval_cases m <;> decide

theorem toDigitsCore_digits :
    ∀ (fuel n : Nat) (acc : List Char), (∀ c ∈ acc, c.isDigit = true) →
      ∀ c ∈ Nat.toDigitsCore 10 fuel n acc, c.isDigit = true
  | 0, _, _, hacc, c, hc => hacc c hc
  | fuel + 1, n, acc, hacc, c, hc => by
    simp only [Nat.toDigitsCore] at hc
    have hcons : ∀ c2 ∈ Nat.digitChar (n % 10) :: acc, c2.isDigit = true := by
      intro c2 hc2
      rcases List.mem_cons.mp hc2 with rfl | h3
      · exact digitChar_isDigit _ (Nat.mod_lt _ (by decide))
      · exact hacc c2 h3
    by_cases h0 : n / 10 = 0
    · rw [if_pos h0] at hc
      exact hcons c hc
    · rw [if_neg h0] at hc
      exact toDigitsCore_digits fuel (n / 10) _ hcons c hc

theorem repr_isDigit (n : Nat) : ∀ c ∈ (Nat.repr n).data, c.isDigit = true := by
  intro c hc
  exact toDigitsCore_digits (n + 1) n [] (by intro c2 h; exact absurd h (List.not_mem_nil _)) c hc

theorem deltaEncodeGo_cons_valid (prev maxd ninv t : Nat) (rest : List Nat)
    (hd : u32sub t prev < 2 ^ 24) :
    deltaEncodeGo prev maxd ninv (t :: rest)
      = ⟨u32sub t prev * 256 :: (deltaEncodeGo t (max maxd (u32sub t prev)) ninv rest).stored,
         (deltaEncodeGo t (max maxd (u32sub t prev)) ninv rest).maxDelta,
         (deltaEncodeGo t (max maxd (u32sub t prev)) ninv rest).numInvalid⟩ := by
  simp only [deltaEncodeGo]
  rw [if_pos hd]

theorem deltaEncodeGo_cons_invalid (prev maxd ninv t : Nat) (rest : List Nat)
    (hd : ¬ u32sub t prev < 2 ^ 24) :
    deltaEncodeGo prev maxd ninv (t :: rest)
      = ⟨1 :: (deltaEncodeGo prev maxd (ninv + 1) rest).stored,
         (deltaEncodeGo prev maxd (ninv + 1) rest).maxDelta,
         (deltaEncodeGo prev maxd (ninv + 1) rest).numInvalid⟩ := by
  simp only [deltaEncodeGo]
  rw [if_neg hd]

theorem deltaEncodeGo_maxDelta :
    ∀ (ts : List Nat) (prev maxd ninv : Nat),
      (deltaEncodeGo prev maxd ninv ts).maxDelta
        = List.foldl max maxd (storedDeltas (deltaEncodeGo prev maxd ninv ts).stored)
  | [], _, _, _ => rfl
  | t :: rest, prev, maxd, ninv => by
    by_cases hd : u32sub t prev < 2 ^ 24
    · rw [deltaEncodeGo_cons_valid prev maxd ninv t rest hd]
      have hdiv : u32sub t prev * 256 / 256 = u32sub t prev := by omega
      have hfil : storedDeltas (u32sub t prev * 256
            :: (deltaEncodeGo t (max maxd (u32sub t prev)) ninv rest).stored)
          = u32sub t prev
            :: storedDeltas (deltaEncodeGo t (max maxd (u32sub t prev)) ninv rest).stored := by
        simp [storedDeltas, List.filter_cons, Nat.mul_mod_left, hdiv]
      show (deltaEncodeGo t (max maxd (u32sub t prev)) ninv rest).maxDelta
          = List.foldl max maxd (storedDeltas (u32sub t prev * 256
            :: (deltaEncodeGo t (max maxd (u32sub t prev)) ninv rest).stored))
      rw [hfil, List.foldl_cons]
      exact deltaEncodeGo_maxDelta rest t (max maxd (u32sub t prev)) ninv
    · rw [deltaEncodeGo_cons_invalid prev maxd ninv t rest hd]
      have hfil : storedDeltas (1 :: (deltaEncodeGo prev maxd (ninv + 1) rest).stored)
          = storedDeltas (deltaEncodeGo prev maxd (ninv + 1) rest).stored := by
        simp [storedDeltas, List.filter_cons]
      show (deltaEncodeGo prev maxd (ninv + 1) rest).maxDelta
          = List.foldl max maxd
              (storedDeltas (1 :: (deltaEncodeGo prev maxd (ninv + 1) rest).stored))
      rw [hfil]
      exact deltaEncodeGo_maxDelta rest prev maxd (ninv + 1)

theorem storedDeltas_append (a b : List Nat) :
    storedDeltas (a ++ b) = storedDeltas a ++ storedDeltas b := by
  simp [storedDeltas, List.filter_append]

theorem groupEventsGo_maxDelta (base : Nat) :
    ∀ (ets : List (List Nat)) (acc : GroupResult),
      (groupEventsGo base acc ets).maxDelta
        = List.foldl max acc.maxDelta
            (storedDeltas (joinAll (ets.map (fun ts => (groupEntity base ts).stored))))
  | [], acc => by simp [groupEventsGo, joinAll, storedDeltas]
  | ts :: rest, acc => by
    simp only [groupEventsGo, List.map_cons, joinAll]
    rw [groupEventsGo_maxDelta base rest, storedDeltas_append, List.foldl_append]
    have hsto : (deltaEncodeGo base acc.maxDelta acc.numInvalid (sortTs ts)).stored
        = (groupEntity base ts).stored := by
      unfold groupEntity
      exact deltaEncodeGo_stored_eq (sortTs ts) base acc.maxDelta acc.numInvalid
    have hme := deltaEncodeGo_maxDelta (sortTs ts) base acc.maxDelta acc.numInvalid
    rw [hsto] at hme
    congr 1

theorem group_events_maxDelta (base : Nat) (ets : List (List Nat)) :
    (group_events base ets).maxDelta
      = List.foldl max 0 (storedDeltas (joinAll ((group_events base ets).grouped))) := by
  rw [group_events_grouped]
  exact groupEventsGo_maxDelta base ets _

/-- C8: the info file consists of a single whitespace-separated line holding,
in order, the entity count, the event count, the minimum and the maximum
timestamp over all events as computed by the range scan, and the maximum
timestamp delta observed over valid records during grouping, all rendered as
unsigned decimal integers and terminated by a newline. -/
theorem claim_C8_info_file (num_events num_cookies md base : Nat) (ts : List Nat)
    (ets : List (List Nat)) (hne : ts ≠ []) (hle : ∀ t ∈ ts, t ≤ UINT32_MAX) :
    (store_info num_events num_cookies (timestamp_range ts).1 (timestamp_range ts).2 md).data
        = (Nat.repr num_cookies).data ++ ' ' :: ((Nat.repr num_events).data
          ++ ' ' :: ((Nat.repr (timestamp_range ts).1).data
          ++ ' ' :: ((Nat.repr (timestamp_range ts).2).data
          ++ ' ' :: ((Nat.repr md).data ++ ['\n']))))
      ∧ (∀ n : Nat, ∀ c ∈ (Nat.repr n).data, c.isDigit = true)
      ∧ ((timestamp_range ts).1 ∈ ts ∧ ∀ t ∈ ts, (timestamp_range ts).1 ≤ t)
      ∧ ((timestamp_range ts).2 ∈ ts ∧ ∀ t ∈ ts, t ≤ (timestamp_range ts).2)
      ∧ (group_events base ets).maxDelta
          = List.foldl max 0 (storedDeltas (joinAll ((group_events base ets).grouped))) := by
  refine ⟨?_, repr_isDigit, timestamp_range_min ts hne hle,
    timestamp_range_max ts hne, group_events_maxDelta base ets⟩
  simp [store_info, List.append_assoc]

/-- Witness for C8 at a concrete input. -/
theorem claim_C8_info_file_witness :
    ((store_info 3 2 (timestamp_range [5, 3]).1 (timestamp_range [5, 3]).2 7).data
        = (Nat.repr 2).data ++ ' ' :: ((Nat.repr 3).data
          ++ ' ' :: ((Nat.repr (timestamp_range [5, 3]).1).data
          ++ ' ' :: ((Nat.repr (timestamp_range [5, 3]).2).data
          ++ ' ' :: ((Nat.repr 7).data ++ ['\n']))))
      ∧ (∀ n : Nat, ∀ c ∈ (Nat.repr n).data, c.isDigit = true)
      ∧ ((timestamp_range [5, 3]).1 ∈ [5, 3] ∧ ∀ t ∈ [5, 3], (timestamp_range [5, 3]).1 ≤ t)
      ∧ ((timestamp_range [5, 3]).2 ∈ [5, 3] ∧ ∀ t ∈ [5, 3], t ≤ (timestamp_range [5, 3]).2)
      ∧ (group_events 0 [[0]]).maxDelta
          = List.foldl max 0 (storedDeltas (joinAll ((group_events 0 [[0]]).grouped)))) :=
  claim_C8_info_file 3 2 7 0 [5, 3] [[0]] (by decide)
    (by intro t ht; fin_cases ht <;> decide)

/-! Trail-buffer padding and the length residual. -/

theorem orBits_zero : ∀ (l : List Bool), orBits 0 l = l
  | [] => rfl
  | b :: rest => by simp [orBits, orBits_zero rest]

theorem orBits_length : ∀ (v : Nat) (l : List Bool), (orBits v l).length = l.length
  | _, [] => rfl
  | v, _ :: rest => by simp [orBits, orBits_length (v / 2) rest]

/-- C9: for every entity whose trail has a bit length `offs = 3 + content
bits` that is not a multiple of 8, the number of trailing padding bits of the
last byte, `8 - offs % 8` (a value between 1 and 7), is recorded in the 3
reserved bits at bit offset 0 of the trail buffer, the content bits are
untouched, and the padding bits themselves are zero because the buffer is
zeroed before each entity reuses it; the trail occupies `offs / 8 + 1` bytes.
When the bit length is a multiple of 8, the 3 reserved header bits stay zero,
no padding is written, and the trail occupies `offs / 8` bytes. -/
theorem claim_C9_length_residual (content : List Bool) :
    (finishTrail content).1.length = 8 * (finishTrail content).2
      ∧ ((3 + content.length) % 8 ≠ 0 →
          1 ≤ 8 - (3 + content.length) % 8
            ∧ 8 - (3 + content.length) % 8 ≤ 7
            ∧ (finishTrail content).2 = (3 + content.length) / 8 + 1
            ∧ (finishTrail content).1
                = ((8 - (3 + content.length) % 8) % 2 == 1)
                  :: ((8 - (3 + content.length) % 8) / 2 % 2 == 1)
                  :: ((8 - (3 + content.length) % 8) / 4 % 2 == 1)
                  :: (content ++ List.replicate (8 - (3 + content.length) % 8) false)
            ∧ (8 - (3 + content.length) % 8) % 2
                + 2 * ((8 - (3 + content.length) % 8) / 2 % 2)
                + 4 * ((8 - (3 + content.length) % 8) / 4 % 2)
                = 8 - (3 + content.length) % 8)
      ∧ ((3 + content.length) % 8 = 0 →
          (finishTrail content).2 = (3 + content.length) / 8
            ∧ (finishTrail content).1 = false :: false :: false :: content) := by
  by_cases h8 : (3 + content.length) % 8 = 0
  · have hpad : byteLen (3 + content.length) * 8 - (3 + content.length) = 0 := by
      unfold byteLen
      rw [if_neg (not_not_intro h8)]
      omega
    have hft : finishTrail content
        = (false :: false :: false :: content, (3 + content.length) / 8) := by
      simp only [finishTrail]
      rw [if_neg (not_not_intro h8), hpad]
      simp [List.replicate]
    refine ⟨?_, fun hc => absurd h8 hc, fun _ => ⟨by rw [hft], by rw [hft]⟩⟩
    rw [hft]
    simp only [List.length_cons]
    omega
  · have hpad : byteLen (3 + content.length) * 8 - (3 + content.length)
        = 8 - (3 + content.length) % 8 := by
      unfold byteLen
      rw [if_pos h8]
      omega
    have hq : (8 - (3 + content.length) % 8) / 2 / 2 = (8 - (3 + content.length) % 8) / 4 := by
      omega
    have hz : (8 - (3 + content.length) % 8) / 4 / 2 = 0 := by omega
    have hft : finishTrail content
        = (((8 - (3 + content.length) % 8) % 2 == 1)
            :: ((8 - (3 + content.length) % 8) / 2 % 2 == 1)
            :: ((8 - (3 + content.length) % 8) / 4 % 2 == 1)
            :: (content ++ List.replicate (8 - (3 + content.length) % 8) false),
           (3 + content.length) / 8 + 1) := by
      simp only [finishTrail]
      rw [if_pos h8, hpad]
      simp only [write_bits, List.take_zero, List.drop_zero, List.nil_append,
        List.replicate, List.cons_append]
      simp only [orBits, Bool.false_or]
      rw [hq, hz, orBits_zero]
    refine ⟨?_, fun _ => ⟨by omega, by omega, by rw [hft], by rw [hft], by omega⟩,
      fun hc => absurd hc h8⟩
    rw [hft]
    simp only [List.length_cons, List.length_append, List.length_replicate]
    omega

/-- Witness for C9 at a one-bit content: `offs = 4`, residual 4, one byte. -/
theorem claim_C9_length_residual_witness :
    (finishTrail [true]).1.length = 8 * (finishTrail [true]).2
      ∧ 1 ≤ 8 - (3 + [true].length) % 8
      ∧ (finishTrail [true]).2 = (3 + [true].length) / 8 + 1 := by
  have h := claim_C9_length_residual [true]
  have h2 := h.2.1 (by decide)
  exact ⟨h.1, h2.1, h2.2.2.1⟩

/-! Lemmas about the trail-encoding loop and its write trace. -/

theorem sumLen_nil : sumLen [] = 0 := rfl

theorem sumLen_cons (tb : List Nat) (l : List (List Nat)) :
    sumLen (tb :: l) = tb.length + sumLen l := by
  simp [sumLen]

theorem sumLen_take_succ :
    ∀ (l : List (List Nat)) (i : Nat), i < l.length →
      sumLen (l.take (i + 1)) = sumLen (l.take i) + (l.getD i []).length
  | [], i, h => absurd h (by simp)
  | tb :: rest, 0, _ => by simp [sumLen]
  | tb :: rest, i + 1, h => by
    simp only [List.take_succ_cons, sumLen_cons, List.getD_cons_succ]
    rw [sumLen_take_succ rest i (by simp only [List.length_cons] at h; omega)]
    omega

theorem encodeGo_sound :
    ∀ (trails : List (List Nat)) (n i cur : Nat),
      (∀ k, k < trails.length → cur + sumLen (trails.take (k + 1)) < UINT32_MAX) →
      encodeGo n i cur trails
        = (entityWriteList i cur trails ++ [WOp.tocSlot n (cur + sumLen trails)],
           some (cur + sumLen trails))
  | [], n, i, cur, _ => by simp [encodeGo, entityWriteList, sumLen]
  | tb :: rest, n, i, cur, h => by
    have h0 : cur + tb.length < UINT32_MAX := by
      have h1 := h 0 (by simp)
      rw [List.take_succ_cons, List.take_zero, sumLen_cons, sumLen_nil] at h1
      omega
    simp only [encodeGo]
    rw [if_neg (by omega : ¬ UINT32_MAX ≤ cur + tb.length)]
    have hrec := encodeGo_sound rest n (i + 1) (cur + tb.length) (by
      intro k hk
      have h2 := h (k + 1) (by simp only [List.length_cons]; omega)
      rw [List.take_succ_cons, sumLen_cons] at h2
      omega)
    rw [hrec]
    simp [entityWriteList, sumLen_cons, Nat.add_assoc]

theorem encodeGo_none :
    ∀ (trails : List (List Nat)) (n i cur k : Nat), k < trails.length →
      UINT32_MAX ≤ cur + sumLen (trails.take (k + 1)) →
      (encodeGo n i cur trails).2 = none
  | [], _, _, _, k, hk, _ => absurd hk (by simp)
  | tb :: rest, n, i, cur, k, hk, hge => by
    simp only [encodeGo]
    by_cases hc : UINT32_MAX ≤ cur + tb.length
    · rw [if_pos hc]
    · rw [if_neg hc]
      cases k with
      | zero =>
        rw [List.take_succ_cons, List.take_zero, sumLen_cons, sumLen_nil] at hge
        omega
      | succ k2 =>
        rw [List.take_succ_cons, sumLen_cons] at hge
        show (encodeGo n (i + 1) (cur + tb.length) rest).2 = none
        exact encodeGo_none rest n (i + 1) (cur + tb.length) k2
          (by simp only [List.length_cons] at hk; omega) (by omega)

theorem encodeGo_some_bounds (trails : List (List Nat)) (n i cur v : Nat)
    (hsome : (encodeGo n i cur trails).2 = some v) :
    ∀ k, k < trails.length → cur + sumLen (trails.take (k + 1)) < UINT32_MAX := by
  intro k hk
  by_contra hcon
  rw [encodeGo_none trails n i cur k hk (by omega)] at hsome
  exact Option.noConfusion hsome

theorem encode_trails_some (num_cookies : Nat) (trails : List (List Nat)) (ws : List WOp)
    (fin : Nat) (henc : encode_trails num_cookies trails = (ws, some fin)) :
    (num_cookies + 1) * 4 < UINT32_MAX
      ∧ (∀ k, k < trails.length →
          (num_cookies + 1) * 4 + sumLen (trails.take (k + 1)) < UINT32_MAX)
      ∧ ws = entityWriteList 0 ((num_cookies + 1) * 4) trails
          ++ [WOp.tocSlot num_cookies ((num_cookies + 1) * 4 + sumLen trails)]
      ∧ fin = (num_cookies + 1) * 4 + sumLen trails := by
  unfold encode_trails at henc
  by_cases hstart : UINT32_MAX ≤ (num_cookies + 1) * 4
  · rw [if_pos hstart] at henc
    have h2 := congrArg Prod.snd henc
    simp at h2
  · rw [if_neg hstart] at henc
    have hb := encodeGo_some_bounds trails num_cookies 0 ((num_cookies + 1) * 4) fin
      (by rw [henc])
    have hs := encodeGo_sound trails num_cookies 0 ((num_cookies + 1) * 4) hb
    rw [hs] at henc
    have h1 := congrArg Prod.fst henc
    have h2 := congrArg Prod.snd henc
    simp only [Prod.fst, Prod.snd] at h1 h2
    refine ⟨by omega, hb, h1.symm, ?_⟩
    have h3 : some ((num_cookies + 1) * 4 + sumLen trails) = some fin := h2
    exact (Option.some.injEq _ _ ▸ h3).symm

theorem encode_trails_some_fin_lt (num_cookies : Nat) (trails : List (List Nat))
    (ws : List WOp) (fin : Nat)
    (henc : encode_trails num_cookies trails = (ws, some fin)) : fin < UINT32_MAX := by
  obtain ⟨hstart, hb, _, hfin⟩ := encode_trails_some num_cookies trails ws fin henc
  cases trails with
  | nil =>
    rw [hfin, sumLen_nil]
    omega
  | cons tb rest =>
    have hb2 := hb rest.length (by simp)
    have htk : (tb :: rest).take (rest.length + 1) = tb :: rest := by
      rw [← List.length_cons tb rest, List.take_length]
    rw [htk] at hb2
    omega

theorem padTo_of_le (file : List Nat) (k : Nat) (h : k ≤ file.length) :
    padTo file k = file := by
  simp [padTo, Nat.sub_eq_zero_of_le h]

theorem toLE4_length (v : Nat) : (toLE4 v).length = 4 := rfl

theorem writeAt_exact (P C R bytes : List Nat) (hC : C.length = bytes.length) :
    writeAt (P ++ (C ++ R)) P.length bytes = P ++ (bytes ++ R) := by
  have hlen : P.length + bytes.length ≤ (P ++ (C ++ R)).length := by
    simp only [List.length_append]
    omega
  unfold writeAt
  rw [padTo_of_le _ _ hlen]
  rw [List.take_left' rfl, ← hC, List.drop_append, List.drop_left]
  simp [List.append_assoc]

theorem writeAt_end (file bytes : List Nat) :
    writeAt file file.length bytes = file ++ bytes := by
  unfold writeAt
  have hpad : padTo file (file.length + bytes.length)
      = file ++ List.replicate bytes.length 0 := by
    simp [padTo]
  rw [hpad, List.take_left' rfl, List.drop_append, List.drop_replicate]
  simp

theorem writeAt_end_pos (file bytes : List Nat) (pos : Nat) (h : pos = file.length) :
    writeAt file pos bytes = file ++ bytes := by
  rw [h]
  exact writeAt_end file bytes

theorem writeAt_past_end (file bytes : List Nat) (pos : Nat) (h : file.length ≤ pos) :
    writeAt file pos bytes = file ++ (List.replicate (pos - file.length) 0 ++ bytes) := by
  unfold writeAt
  have hpad : padTo file (pos + bytes.length)
      = file ++ List.replicate (pos + bytes.length - file.length) 0 := by
    simp [padTo]
  rw [hpad]
  have hrep : List.replicate (pos + bytes.length - file.length) (0 : Nat)
      = List.replicate (pos - file.length) 0 ++ List.replicate bytes.length 0 := by
    rw [← List.replicate_add]
    congr 1
    omega
  rw [hrep]
  have ht : (file ++ (List.replicate (pos - file.length) 0
      ++ List.replicate bytes.length 0)).take pos
      = file ++ List.replicate (pos - file.length) 0 := by
    rw [← List.append_assoc]
    have hl : (file ++ List.replicate (pos - file.length) (0 : Nat)).length = pos := by
      simp only [List.length_append, List.length_replicate]
      omega
    rw [List.take_left' hl]
  have hd : (file ++ (List.replicate (pos - file.length) 0
      ++ List.replicate bytes.length 0)).drop (pos + bytes.length) = [] := by
    apply List.drop_eq_nil_of_le
    simp only [List.length_append, List.length_replicate]
    omega
  rw [ht, hd]
  simp [List.append_assoc]

theorem joinAll_length : ∀ (ls : List (List Nat)), (joinAll ls).length = sumLen ls
  | [] => rfl
  | tb :: rest => by
    simp only [joinAll, List.length_append, sumLen_cons, joinAll_length rest]

theorem joinAll_map_toLE4_length :
    ∀ (l : List Nat), (joinAll (l.map toLE4)).length = 4 * l.length
  | [] => rfl
  | v :: rest => by
    simp only [List.map_cons, joinAll, List.length_append, toLE4_length,
      joinAll_map_toLE4_length rest, List.length_cons]
    omega

theorem scanl_len_getD :
    ∀ (trails : List (List Nat)) (cur i : Nat), i ≤ trails.length →
      (trails.scanl (fun c tb => c + tb.length) cur).getD i 0
        = cur + sumLen (trails.take i)
  | trails, cur, 0, _ => by
    cases trails <;> simp [List.scanl_nil, List.scanl_cons, sumLen]
  | [], _, i + 1, h => absurd h (by simp)
  | tb :: rest, cur, i + 1, h => by
    rw [List.scanl_cons, List.singleton_append, List.getD_cons_succ]
    rw [scanl_len_getD rest (cur + tb.length) i (by simp only [List.length_cons] at h; omega)]
    rw [List.take_succ_cons, sumLen_cons]
    omega

theorem scanl_len_mem_le :
    ∀ (trails : List (List Nat)) (cur v : Nat),
      v ∈ trails.scanl (fun c tb => c + tb.length) cur → v ≤ cur + sumLen trails
  | [], cur, v, h => by
    rw [List.scanl_nil] at h
    have hv : v = cur := by simpa using h
    rw [hv, sumLen_nil]
    omega
  | tb :: rest, cur, v, h => by
    rw [List.scanl_cons, List.singleton_append] at h
    rcases List.mem_cons.mp h with rfl | h2
    · rw [sumLen_cons]
      omega
    · have h3 := scanl_len_mem_le rest (cur + tb.length) v h2
      rw [sumLen_cons]
      omega

theorem runWrites_toc :
    ∀ (trails : List (List Nat)) (n i cur : Nat) (P T : List Nat),
      i + trails.length = n →
      P.length = 4 * i →
      cur = 4 * (n + 1) + T.length →
      runWrites (P ++ (List.replicate (4 * (n + 1 - i)) 0 ++ T))
          (entityWriteList i cur trails ++ [WOp.tocSlot n (cur + sumLen trails)])
        = P ++ (joinAll ((trails.scanl (fun c tb => c + tb.length) cur).map toLE4)
            ++ (T ++ joinAll trails))
  | [], n, i, cur, P, T, hin, hP, hcur => by
    simp only [List.length_nil] at hin
    simp only [entityWriteList, List.nil_append, runWrites, List.foldl_cons, List.foldl_nil,
      applyWrite, sumLen_nil, Nat.add_zero]
    have hi : i = n := by omega
    subst hi
    have h4 : 4 * (i + 1 - i) = 4 := by omega
    rw [h4]
    have hpos : i * 4 = P.length := by omega
    rw [hpos]
    rw [writeAt_exact P (List.replicate 4 0) T (toLE4 cur) (by simp [toLE4])]
    simp [List.scanl_nil, List.map_cons, joinAll]
  | tb :: rest, n, i, cur, P, T, hin, hP, hcur => by
    have hilt : i < n := by
      simp only [List.length_cons] at hin
      omega
    simp only [entityWriteList, List.cons_append, runWrites, List.foldl_cons, applyWrite]
    have hsplit : List.replicate (4 * (n + 1 - i)) (0 : Nat)
        = List.replicate 4 0 ++ List.replicate (4 * (n - i)) 0 := by
      rw [← List.replicate_add]
      congr 1
      omega
    rw [hsplit, List.append_assoc]
    have hpos : i * 4 = P.length := by omega
    rw [hpos]
    rw [writeAt_exact P (List.replicate 4 0)
      (List.replicate (4 * (n - i)) 0 ++ T) (toLE4 cur) (by simp [toLE4])]
    have hF1len : (P ++ (toLE4 cur ++ (List.replicate (4 * (n - i)) 0 ++ T))).length = cur := by
      simp only [List.length_append, List.length_replicate, toLE4_length]
      omega
    rw [writeAt_end_pos _ tb cur hF1len.symm]
    have hshape : P ++ (toLE4 cur ++ (List.replicate (4 * (n - i)) 0 ++ T)) ++ tb
        = (P ++ toLE4 cur) ++ (List.replicate (4 * (n + 1 - (i + 1))) 0 ++ (T ++ tb)) := by
      rw [show 4 * (n + 1 - (i + 1)) = 4 * (n - i) from by omega]
      simp [List.append_assoc]
    rw [hshape]
    have hrec := runWrites_toc rest n (i + 1) (cur + tb.length) (P ++ toLE4 cur) (T ++ tb)
      (by simp only [List.length_cons] at hin; omega)
      (by simp only [List.length_append, toLE4_length]; omega)
      (by simp only [List.length_append]; omega)
    have hlast : cur + sumLen (tb :: rest) = cur + tb.length + sumLen rest := by
      rw [sumLen_cons]
      omega
    rw [hlast]
    simp only [runWrites] at hrec
    rw [hrec]
    rw [List.scanl_cons, List.singleton_append, List.map_cons]
    simp [joinAll, List.append_assoc]

theorem encodeGo_abort :
    ∀ (trails : List (List Nat)) (n i cur k : Nat), k < trails.length →
      (∀ j, j < k → cur + sumLen (trails.take (j + 1)) < UINT32_MAX) →
      UINT32_MAX ≤ cur + sumLen (trails.take (k + 1)) →
      encodeGo n i cur trails = (entityWriteList i cur (trails.take (k + 1)), none)
  | [], _, _, _, k, hk, _, _ => absurd hk (by simp)
  | tb :: rest, n, i, cur, k, hk, hj, hge => by
    simp only [encodeGo]
    cases k with
    | zero =>
      rw [List.take_succ_cons, List.take_zero, sumLen_cons, sumLen_nil] at hge
      rw [if_pos (by omega : UINT32_MAX ≤ cur + tb.length)]
      simp [entityWriteList]
    | succ k2 =>
      have h0 : cur + tb.length < UINT32_MAX := by
        have hj0 := hj 0 (by omega)
        rw [List.take_succ_cons, List.take_zero, sumLen_cons, sumLen_nil] at hj0
        omega
      rw [if_neg (by omega : ¬ UINT32_MAX ≤ cur + tb.length)]
      have hrec := encodeGo_abort rest n (i + 1) (cur + tb.length) k2
        (by simp only [List.length_cons] at hk; omega)
        (by
          intro j hjlt
          have hjj := hj (j + 1) (by omega)
          rw [List.take_succ_cons, sumLen_cons] at hjj
          omega)
        (by
          rw [List.take_succ_cons, sumLen_cons] at hge
          omega)
      rw [hrec]
      simp [entityWriteList]

theorem entityWriteList_slots :
    ∀ (trails : List (List Nat)) (i cur : Nat),
      (entityWriteList i cur trails).filterMap
          (fun w => match w with
            | WOp.tocSlot s _ => some s
            | WOp.append _ _ => none)
        = List.range' i trails.length
  | [], _, _ => rfl
  | tb :: rest, i, cur => by
    simp only [entityWriteList, List.filterMap_cons, List.length_cons, List.range'_succ]
    rw [entityWriteList_slots rest (i + 1) (cur + tb.length)]

theorem walkChain_ne_nil :
    ∀ (events : List tdb_event) (ev : tdb_event) (fuel : Nat), walkChain events ev fuel ≠ []
  | _, _, 0 => by simp [walkChain]
  | events, ev, fuel + 1 => by
    simp only [walkChain]
    split_ifs <;> simp

theorem finishTrail_pos (content : List Bool) : 1 ≤ (finishTrail content).2 := by
  simp only [finishTrail]
  split_ifs with h
  · simp
  · simp only []
    omega

theorem runWrites_encode_file (num_cookies : Nat) (trails : List (List Nat)) (ws : List WOp)
    (fin : Nat) (hlen : trails.length = num_cookies)
    (henc : encode_trails num_cookies trails = (ws, some fin)) :
    runWrites [] ws
      = joinAll ((trails.scanl (fun c tb => c + tb.length) ((num_cookies + 1) * 4)).map toLE4)
        ++ joinAll trails := by
  obtain ⟨hstart, hb, hws, hfin⟩ := encode_trails_some num_cookies trails ws fin henc
  subst hws
  cases trails with
  | nil =>
    have hn : num_cookies = 0 := by simpa using hlen.symm
    subst hn
    simp only [entityWriteList, List.nil_append, sumLen_nil, Nat.add_zero, runWrites,
      List.foldl_cons, List.foldl_nil, applyWrite]
    rw [show (0 : Nat) * 4 = 0 from rfl]
    rw [writeAt_past_end [] (toLE4 ((0 + 1) * 4)) 0 (by simp)]
    simp [List.scanl_nil, joinAll]
  | cons tb rest =>
    have hn1 : 1 ≤ num_cookies := by
      simp only [List.length_cons] at hlen
      omega
    simp only [entityWriteList, List.cons_append, runWrites, List.foldl_cons, applyWrite]
    rw [show (0 : Nat) * 4 = 0 from rfl]
    rw [writeAt_past_end [] (toLE4 ((num_cookies + 1) * 4)) 0 (by simp)]
    simp only [List.length_nil, Nat.sub_zero, List.replicate, List.nil_append]
    rw [writeAt_past_end (toLE4 ((num_cookies + 1) * 4)) tb ((num_cookies + 1) * 4)
      (by simp only [toLE4_length]; omega)]
    have hrep : List.replicate ((num_cookies + 1) * 4 - (toLE4 ((num_cookies + 1) * 4)).length)
        (0 : Nat) = List.replicate (4 * (num_cookies + 1 - 1)) 0 := by
      congr 1
      simp only [toLE4_length]
      omega
    rw [hrep]
    have hlast : (num_cookies + 1) * 4 + sumLen (tb :: rest)
        = (num_cookies + 1) * 4 + tb.length + sumLen rest := by
      rw [sumLen_cons]
      omega
    rw [hlast]
    have hrec := runWrites_toc rest num_cookies 1 ((num_cookies + 1) * 4 + tb.length)
      (toLE4 ((num_cookies + 1) * 4)) tb
      (by simp only [List.length_cons] at hlen; omega)
      (by simp [toLE4])
      (by omega)
    simp only [runWrites] at hrec
    rw [hrec]
    rw [List.scanl_cons, List.singleton_append, List.map_cons]
    simp [joinAll, List.append_assoc]

/-- C2: during trail encoding the run aborts whenever the cumulative file
offset would reach or exceed `2 ^ 32` bytes (the code in fact aborts already
at `2 ^ 32 - 1`), so a successfully produced trail file is always smaller
than `2 ^ 32` bytes; and when the cumulative offset reaches exactly
`2 ^ 32 - 1` after some entity while a further nonempty trail is pending, the
run aborts and the write trace contains exactly the writes of the completed
entities — no TOC slot, no append and no sentinel for anything beyond. -/
theorem claim_C2_4gb_guard (num_cookies : Nat) (trails : List (List Nat)) :
    (∀ (ws : List WOp) (fin : Nat), trails.length = num_cookies →
        encode_trails num_cookies trails = (ws, some fin) →
          fin < 2 ^ 32 ∧ (runWrites [] ws).length = fin)
      ∧ (∀ k, k < trails.length →
          2 ^ 32 ≤ (num_cookies + 1) * 4 + sumLen (trails.take (k + 1)) →
          (encode_trails num_cookies trails).2 = none)
      ∧ (∀ k, k < trails.length → k + 1 < trails.length →
          (num_cookies + 1) * 4 < UINT32_MAX →
          (∀ j, j < k → (num_cookies + 1) * 4 + sumLen (trails.take (j + 1)) < UINT32_MAX) →
          (num_cookies + 1) * 4 + sumLen (trails.take (k + 1)) = UINT32_MAX →
          1 ≤ (trails.getD (k + 1) []).length →
          encode_trails num_cookies trails
            = (entityWriteList 0 ((num_cookies + 1) * 4) (trails.take (k + 1)), none)) := by
  refine ⟨?_, ?_, ?_⟩
  · intro ws fin hlen henc
    have hfl := encode_trails_some_fin_lt num_cookies trails ws fin henc
    obtain ⟨hstart, hb, hws, hfin⟩ := encode_trails_some num_cookies trails ws fin henc
    have hfile := runWrites_encode_file num_cookies trails ws fin hlen henc
    constructor
    · have : UINT32_MAX < 2 ^ 32 := by decide
      omega
    · rw [hfile]
      rw [List.length_append, joinAll_map_toLE4_length, joinAll_length,
        List.length_scanl, hlen]
      omega
  · intro k hk hge
    unfold encode_trails
    by_cases hstart : UINT32_MAX ≤ (num_cookies + 1) * 4
    · rw [if_pos hstart]
    · rw [if_neg hstart]
      exact encodeGo_none trails num_cookies 0 ((num_cookies + 1) * 4) k hk
        (by unfold UINT32_MAX at *; omega)
  · intro k hk hk1 hstart hj hexact hnext
    unfold encode_trails
    rw [if_neg (by omega : ¬ UINT32_MAX ≤ (num_cookies + 1) * 4)]
    exact encodeGo_abort trails num_cookies 0 ((num_cookies + 1) * 4) k hk hj (by omega)

/-- Witness for C2: two entities, the first trail pushes the offset to
exactly `2 ^ 32 - 1`; the run aborts and only the first entity's TOC slot
write and append are in the trace. -/
theorem claim_C2_4gb_guard_witness :
    encode_trails 1 [List.replicate (2 ^ 32 - 9) 0, [0]]
      = (entityWriteList 0 ((1 + 1) * 4) ([List.replicate (2 ^ 32 - 9) 0, [0]].take (0 + 1)),
         none) := by
  have h := (claim_C2_4gb_guard 1 [List.replicate (2 ^ 32 - 9) 0, [0]]).2.2 0
    (by decide) (by decide) (by decide)
    (by intro j hj; omega)
    (by
      rw [show ([List.replicate (2 ^ 32 - 9) (0 : Nat), [0]].take (0 + 1))
          = [List.replicate (2 ^ 32 - 9) (0 : Nat)] from rfl]
      rw [sumLen_cons, sumLen_nil, List.length_replicate]
      decide)
    (by decide)
  exact h

/-- C5: in the finished trail file the TOC is `num_cookies + 1` offsets laid
out as little-endian 32-bit values at the start of the file, followed by the
concatenated per-entity trail bytes; for all `i < num_cookies`,
`offset[i] ≤ offset[i+1]` and `offset[i+1] - offset[i]` equals the exact byte
length of entity i's zero-padded encoded bitstream, and
`offset[num_cookies]` equals the total size of the trail file. The offsets
are the running cumulative sums, each below `2 ^ 32`. -/
theorem claim_C5_toc_consistency (num_cookies : Nat) (trails : List (List Nat))
    (contents : List (List Bool)) (ws : List WOp) (fin : Nat)
    (hlen : trails.length = num_cookies)
    (hsizes : ∀ i, i < num_cookies →
      (trails.getD i []).length = (finishTrail (contents.getD i [])).2)
    (henc : encode_trails num_cookies trails = (ws, some fin)) :
    ((trails.scanl (fun c tb => c + tb.length) ((num_cookies + 1) * 4)).length
        = num_cookies + 1)
      ∧ (∀ i, i < num_cookies →
          (trails.scanl (fun c tb => c + tb.length) ((num_cookies + 1) * 4)).getD i 0
              ≤ (trails.scanl (fun c tb => c + tb.length) ((num_cookies + 1) * 4)).getD (i + 1) 0
            ∧ (trails.scanl (fun c tb => c + tb.length) ((num_cookies + 1) * 4)).getD (i + 1) 0
                - (trails.scanl (fun c tb => c + tb.length) ((num_cookies + 1) * 4)).getD i 0
              = (finishTrail (contents.getD i [])).2)
      ∧ (trails.scanl (fun c tb => c + tb.length) ((num_cookies + 1) * 4)).getD num_cookies 0
          = fin
      ∧ runWrites [] ws
          = joinAll ((trails.scanl (fun c tb => c + tb.length)
              ((num_cookies + 1) * 4)).map toLE4) ++ joinAll trails
      ∧ (runWrites [] ws).length = fin
      ∧ (∀ v ∈ trails.scanl (fun c tb => c + tb.length) ((num_cookies + 1) * 4),
          v < 2 ^ 32) := by
  obtain ⟨hstart, hb, hws, hfin⟩ := encode_trails_some num_cookies trails ws fin henc
  have hfl := encode_trails_some_fin_lt num_cookies trails ws fin henc
  have hfile := runWrites_encode_file num_cookies trails ws fin hlen henc
  refine ⟨?_, ?_, ?_, hfile, ?_, ?_⟩
  · rw [List.length_scanl, hlen]
  · intro i hi
    have hgi := scanl_len_getD trails ((num_cookies + 1) * 4) i (by omega)
    have hgi1 := scanl_len_getD trails ((num_cookies + 1) * 4) (i + 1) (by omega)
    have hstep := sumLen_take_succ trails i (by omega)
    rw [hgi, hgi1, hstep, hsizes i hi]
    exact ⟨by omega, by omega⟩
  · have hg := scanl_len_getD trails ((num_cookies + 1) * 4) num_cookies (by omega)
    rw [hg, ← hlen, List.take_length]
    omega
  · rw [hfile]
    rw [List.length_append, joinAll_map_toLE4_length, joinAll_length,
      List.length_scanl, hlen]
    omega
  · intro v hv
    have hle := scanl_len_mem_le trails ((num_cookies + 1) * 4) v hv
    have h32 : UINT32_MAX < 2 ^ 32 := by decide
    omega

/-- Witness for C5: one entity whose 1-bit content pads to a single byte. -/
theorem claim_C5_toc_consistency_witness :
    (([[0]] : List (List Nat)).scanl (fun c tb => c + tb.length) ((1 + 1) * 4)).length = 1 + 1
      ∧ (([[0]] : List (List Nat)).scanl (fun c tb => c + tb.length) ((1 + 1) * 4)).getD 1 0 = 9
      ∧ (runWrites [] [WOp.tocSlot 0 8, WOp.append 8 [0], WOp.tocSlot 1 9]).length = 9 := by
  have h := claim_C5_toc_consistency 1 [[0]] [[true]]
    [WOp.tocSlot 0 8, WOp.append 8 [0], WOp.tocSlot 1 9] 9
    (by decide)
    (by intro i hi; interval_cases i; decide)
    (by decide)
  exact ⟨h.1, h.2.2.1, h.2.2.2.2.1⟩

/-- C10: every entity contributes at least one grouped record (the event at
its entity pointer is materialized before the backlink is checked), every
entity's trail occupies at least one byte (the 3 reserved header bits force a
nonzero bit offset), the TOC offsets are strictly increasing, and the write
trace contains exactly one TOC-slot write per slot `0 .. num_cookies`, in
order. -/
theorem claim_C10_toc_strict (num_cookies : Nat) (trails : List (List Nat))
    (contents : List (List Bool)) (ws : List WOp) (fin : Nat)
    (hlen : trails.length = num_cookies)
    (hsizes : ∀ i, i < num_cookies →
      (trails.getD i []).length = (finishTrail (contents.getD i [])).2)
    (henc : encode_trails num_cookies trails = (ws, some fin)) :
    (∀ (events : List tdb_event) (ev : tdb_event) (fuel : Nat), walkChain events ev fuel ≠ [])
      ∧ (∀ content : List Bool, 1 ≤ (finishTrail content).2)
      ∧ (∀ i, i < num_cookies →
          (trails.scanl (fun c tb => c + tb.length) ((num_cookies + 1) * 4)).getD i 0
            < (trails.scanl (fun c tb => c + tb.length) ((num_cookies + 1) * 4)).getD (i + 1) 0)
      ∧ ws.filterMap (fun w => match w with
            | WOp.tocSlot s _ => some s
            | WOp.append _ _ => none) = List.range (num_cookies + 1) := by
  obtain ⟨hstart, hb, hws, hfin⟩ := encode_trails_some num_cookies trails ws fin henc
  refine ⟨walkChain_ne_nil, finishTrail_pos, ?_, ?_⟩
  · intro i hi
    have hgi := scanl_len_getD trails ((num_cookies + 1) * 4) i (by omega)
    have hgi1 := scanl_len_getD trails ((num_cookies + 1) * 4) (i + 1) (by omega)
    have hstep := sumLen_take_succ trails i (by omega)
    have hpos := finishTrail_pos (contents.getD i [])
    have hsz := hsizes i hi
    rw [hgi, hgi1, hstep]
    omega
  · rw [hws, List.filterMap_append, entityWriteList_slots]
    have h1 : ([WOp.tocSlot num_cookies ((num_cookies + 1) * 4 + sumLen trails)].filterMap
        (fun w => match w with
          | WOp.tocSlot s _ => some s
          | WOp.append _ _ => none)) = [num_cookies] := rfl
    rw [h1, hlen, List.range_eq_range', List.range'_concat 0 num_cookies]
    simp

/-- Witness for C10: two entities with 1-byte and 2-byte trails. -/
theorem claim_C10_toc_strict_witness :
    (([[0], [5, 6]] : List (List Nat)).scanl (fun c tb => c + tb.length) ((2 + 1) * 4)).getD 0 0
        < (([[0], [5, 6]] : List (List Nat)).scanl
            (fun c tb => c + tb.length) ((2 + 1) * 4)).getD 1 0
      ∧ ([WOp.tocSlot 0 12, WOp.append 12 [0], WOp.tocSlot 1 13, WOp.append 13 [5, 6],
          WOp.tocSlot 2 15] : List WOp).filterMap (fun w => match w with
            | WOp.tocSlot s _ => some s
            | WOp.append _ _ => none) = List.range (2 + 1) := by
  have h := claim_C10_toc_strict 2 [[0], [5, 6]]
    [[true], [true, true, true, true, true, true, true, true, true]]
    [WOp.tocSlot 0 12, WOp.append 12 [0], WOp.tocSlot 1 13, WOp.append 13 [5, 6],
      WOp.tocSlot 2 15] 15
    (by decide)
    (by intro i hi; interval_cases i <;> decide)
    (by decide)
  exact ⟨h.2.2.1 0 (by decide), h.2.2.2⟩

end TrailDB
